import Mathlib

/-!
Verification of the parallel-chain orchestration layer of orchard-star
(`lib/orchard/parallel/chain.py`).

The orchestrator `run_chains_parallel` submits `n_chains` workers, each
seeded with `(seed + i + 1) % MAX_SEED`, then busy-polls: in each loop
iteration it scans every chain in index order, folds the result of any
newly completed chain into its accumulators (re-raising a worker
exception immediately), then drains at most one progress event from the
progress queue, and finally returns `sorted(best_trees), branches_explored,
branches_cut` once every chain is finished.

The embedding is parametric in a `Schedule`: `doneAt i` is the poll
iteration from which the future of chain `i` reports done, and `pushedBy t` is
the cumulative number of progress events sitting in (or already drained
from) the queue when iteration `t` performs its single non-blocking
`get_nowait`.  The schedule captures exactly the nondeterminism of the
process pool and of the multiprocessing queue; everything else in the
orchestrator is deterministic and is translated directly from the source.
-/

namespace Orchard

/-- Modelled from the spec: the `Branch` class lives outside this core
(`lib/orchard/branch`, not in scope); solutions are opaque scored objects
and the final `sorted` call orders them ascending by score.  `tag`
stands for the payload that distinguishes two solutions of equal score. -/
structure Branch where
  score : Int
  tag : Nat
deriving DecidableEq, Repr

/-- The triple returned by `run_chain`: `model.best_trees()`,
`model.branches_explored()`, `model.branches_cut()`. -/
structure ChainResult where
  trees : List Branch
  explored : Nat
  cut : Nat
deriving DecidableEq, Repr

/-- The deterministic inputs of one run: the number of chains
(`setup_data.n_chains`), the beam width (`model_data.beam_width`, used
only for the progress-bar total), and for each chain index the outcome
of `run_chain` for that chain — a `ChainResult` or the exception raised
inside the worker.  The outcome of a chain is a function of the shared
inputs and its derived seed, hence identical across runs with identical
inputs. -/
structure ChainEnv (ε : Type) where
  n : Nat
  beamWidth : Nat
  outcome : Nat → Except ε ChainResult

/-- Scheduling nondeterminism of one concrete run: `doneAt i` is the
first poll iteration at which `futures[i].done()` is true, and
`pushedBy t` is how many progress events have been pushed into the
shared queue by the time iteration `t` reaches its `get_nowait` call. -/
structure Schedule where
  doneAt : Nat → Nat
  pushedBy : Nat → Nat

/-- Modelled from the spec: `MAX_SEED` is imported from `constants.py`
(not in scope), a fixed large modulus bounding numpy's valid seed space. -/
def MAX_SEED : Nat := 2 ^ 32 - 1

/-- Seed handed to chain `i`: `(setup_data.seed + i + 1) % MAX_SEED`
(line 105 of `chain.py`). -/
def chainSeed (base i : Nat) : Nat := (base + i + 1) % MAX_SEED

/-- What the submission loop hands to chain `i`: its index and seed. -/
structure ChainSpec where
  idx : Nat
  seed : Nat
deriving DecidableEq, Repr

/-- The submission loop `for i in range(setup_data.n_chains)` builds one
spec per chain, in ascending index order. -/
def chainSpecs (base n : Nat) : List ChainSpec :=
  (List.range n).map fun i => ⟨i, chainSeed base i⟩

/-- Mutable locals of the orchestrator: the `finished` boolean array,
`best_trees`, `branches_explored`, `branches_cut`, and the progress-bar
position (number of events drained so far). -/
structure OrchState where
  finished : List Bool
  bestTrees : List Branch
  explored : Nat
  cut : Nat
  observed : Nat
deriving DecidableEq, Repr

/-- Locals before the polling loop: `np.full(n_chains, False)`, `[]`,
`0`, `0`, progress bar at `0`. -/
def initState (n : Nat) : OrchState :=
  { finished := List.replicate n false
    bestTrees := []
    explored := 0
    cut := 0
    observed := 0 }

/-- Fold block lines 138–142: append `trees` to `best_trees`, add both
counters, mark chain `i` finished. -/
def foldState (s : OrchState) (i : Nat) (r : ChainResult) : OrchState :=
  { s with
    finished := s.finished.set i true
    bestTrees := s.bestTrees ++ r.trees
    explored := s.explored + r.explored
    cut := s.cut + r.cut }

/-- Body of `for i, complete in enumerate(finished)` for one index `i`:
skip a chain already marked finished or not yet done; otherwise re-raise
its exception, or fold its result and mark it finished. -/
def checkChain (env : ChainEnv ε) (sched : Schedule) (t : Nat) (s : OrchState)
    (i : Nat) : Except ε OrchState :=
  if s.finished.getD i true then
    .ok s
  else if sched.doneAt i ≤ t then
    match env.outcome i with
    | .error e => .error e
    | .ok r => .ok (foldState s i r)
  else
    .ok s

/-- Scan of the index list in order, threading the locals; the first
exception found aborts the scan (the Python `raise` leaves the `for`). -/
def pollList (env : ChainEnv ε) (sched : Schedule) (t : Nat) :
    List Nat → OrchState → Except ε OrchState
  | [], s => .ok s
  | i :: rest, s =>
    match checkChain env sched t s i with
    | .error e => .error e
    | .ok s1 => pollList env sched t rest s1

/-- One full scan of the `finished` array, `for i, complete in
enumerate(finished)`, in index order. -/
def pollOnce (env : ChainEnv ε) (sched : Schedule) (t : Nat) (s : OrchState) :
    Except ε OrchState :=
  pollList env sched t (List.range env.n) s

/-- Drain step `try: progress_queue.get_nowait(); pbar.update() except
Empty: pass` — consume at most one event, if the queue is non-empty. -/
def drainOne (sched : Schedule) (t : Nat) (s : OrchState) : OrchState :=
  if s.observed < sched.pushedBy t then { s with observed := s.observed + 1 } else s

/-- Outcome of the polling loop: normal exit with the final locals, an
exception propagated out of `while`, or fuel exhausted (the Python loop
would still be spinning after `fuel` iterations). -/
inductive RunResult (ε : Type) where
  | done : OrchState → RunResult ε
  | fail : ε → RunResult ε
  | spin : RunResult ε
deriving DecidableEq, Repr

/-- Polling loop `while not all(finished)` — scan all chains, then drain
at most one event, bounded by `fuel` iterations. -/
def loop (env : ChainEnv ε) (sched : Schedule) : Nat → Nat → OrchState → RunResult ε
  | 0, _, s => if s.finished.all (fun b => b) then .done s else .spin
  | fuel + 1, t, s =>
    if s.finished.all (fun b => b) then .done s
    else
      match pollOnce env sched t s with
      | .error e => .fail e
      | .ok s1 => loop env sched fuel (t + 1) (drainOne sched t s1)

/-- Entry point `run_chains_parallel`, from building the locals through
the polling loop.  The submission side effects are captured by
`chainSpecs` and by `env.outcome`; the loop starts at iteration `0`
with fresh locals. -/
def run_chains_parallel (env : ChainEnv ε) (sched : Schedule) (fuel : Nat) :
    RunResult ε :=
  loop env sched fuel 0 (initState env.n)

/-- Comparison used by the final `sorted(best_trees)`.  Modelled from
the spec: `Branch` ordering compares scores, ascending. -/
def branchLE (a b : Branch) : Prop := a.score ≤ b.score

instance : DecidableRel branchLE :=
  fun a b => inferInstanceAs (Decidable (a.score ≤ b.score))

instance : IsTotal Branch branchLE := ⟨fun a b => le_total a.score b.score⟩

instance : IsTrans Branch branchLE := ⟨fun _ _ _ => le_trans⟩

/-- Final `sorted(best_trees)` — a stable ascending sort, as in Python
(insertion sort is stable, like the sort used by `sorted`). -/
def rankedOf (s : OrchState) : List Branch := s.bestTrees.insertionSort branchLE

/-- Returned triple `sorted(best_trees), branches_explored, branches_cut`. -/
def returnValue (s : OrchState) : List Branch × Nat × Nat :=
  (rankedOf s, s.explored, s.cut)

/-- Solutions of chain `i`, empty for a failing chain. -/
def chainTrees (env : ChainEnv ε) (i : Nat) : List Branch :=
  match env.outcome i with
  | .ok r => r.trees
  | .error _ => []

/-- Explored counter of chain `i`, zero for a failing chain. -/
def chainExplored (env : ChainEnv ε) (i : Nat) : Nat :=
  match env.outcome i with
  | .ok r => r.explored
  | .error _ => 0

/-- Cut counter of chain `i`, zero for a failing chain. -/
def chainCut (env : ChainEnv ε) (i : Nat) : Nat :=
  match env.outcome i with
  | .ok r => r.cut
  | .error _ => 0

/-- Sum `Σ explored_count_i` over all chains. -/
def totalExplored (env : ChainEnv ε) : Nat :=
  ((List.range env.n).map (chainExplored env)).sum

/-- Sum `Σ cut_count_i` over all chains. -/
def totalCut (env : ChainEnv ε) : Nat :=
  ((List.range env.n).map (chainCut env)).sum

/-- Concatenation of every chain's solutions in chain-index order. -/
def allTrees (env : ChainEnv ε) : List Branch :=
  (List.range env.n).foldr (fun i acc => chainTrees env i ++ acc) []

/-- Progress-bar total `model_data.beam_width * setup_data.n_chains`. -/
def expectedProgressUnits (env : ChainEnv ε) : Nat := env.beamWidth * env.n

/-- Counter mass of the chains marked finished in `f`, over an index list. -/
def pickSum (f : List Bool) (g : Nat → Nat) (idxs : List Nat) : Nat :=
  idxs.foldr (fun i acc => (if f.getD i false then g i else 0) + acc) 0

/-- Solutions of the chains marked finished in `f`, over an index list. -/
def pickTrees (env : ChainEnv ε) (f : List Bool) (idxs : List Nat) : List Branch :=
  idxs.foldr (fun i acc => (if f.getD i false then chainTrees env i else []) ++ acc) []

lemma pickSum_nil (f : List Bool) (g : Nat → Nat) : pickSum f g [] = 0 := rfl

lemma pickSum_cons (f : List Bool) (g : Nat → Nat) (j : Nat) (rest : List Nat) :
    pickSum f g (j :: rest) = (if f.getD j false then g j else 0) + pickSum f g rest := rfl

lemma pickTrees_nil (env : ChainEnv ε) (f : List Bool) : pickTrees env f [] = [] := rfl

lemma pickTrees_cons (env : ChainEnv ε) (f : List Bool) (j : Nat) (rest : List Nat) :
    pickTrees env f (j :: rest) =
      (if f.getD j false then chainTrees env j else []) ++ pickTrees env f rest := rfl

lemma getD_set_ne (f : List Bool) (i j : Nat) (b d : Bool) (h : i ≠ j) :
    (f.set i b).getD j d = f.getD j d := by
  simp [List.getD_eq_getElem?_getD, List.getElem?_set_ne h]

lemma getD_set_self (f : List Bool) (i : Nat) (b d : Bool) (h : i < f.length) :
    (f.set i b).getD i d = b := by
  simp [List.getD_eq_getElem?_getD, List.getElem?_set_self h]

lemma getD_replicate_false (n i : Nat) : (List.replicate n false).getD i false = false := by
  rw [List.getD_eq_getElem?_getD, List.getElem?_replicate]
  split <;> rfl

lemma pickSum_congr {f f1 : List Bool} {g : Nat → Nat} {idxs : List Nat}
    (h : ∀ i ∈ idxs, f.getD i false = f1.getD i false) :
    pickSum f g idxs = pickSum f1 g idxs := by
  induction idxs with
  | nil => rfl
  | cons j rest ih =>
    rw [pickSum_cons, pickSum_cons, h j (by simp), ih (fun i hi => h i (by simp [hi]))]

lemma pickTrees_congr {env : ChainEnv ε} {f f1 : List Bool} {idxs : List Nat}
    (h : ∀ i ∈ idxs, f.getD i false = f1.getD i false) :
    pickTrees env f idxs = pickTrees env f1 idxs := by
  induction idxs with
  | nil => rfl
  | cons j rest ih =>
    rw [pickTrees_cons, pickTrees_cons, h j (by simp), ih (fun i hi => h i (by simp [hi]))]

lemma pickSum_set_true {f : List Bool} {g : Nat → Nat} {idxs : List Nat} {i : Nat}
    (hnd : idxs.Nodup) (hmem : i ∈ idxs) (hlen : i < f.length)
    (hfalse : f.getD i false = false) :
    pickSum (f.set i true) g idxs = pickSum f g idxs + g i := by
  induction idxs with
  | nil => simp at hmem
  | cons j rest ih =>
    rcases List.mem_cons.mp hmem with rfl | hmem1
    · have hrest : ∀ k ∈ rest, (f.set i true).getD k false = f.getD k false := by
        intro k hk
        refine getD_set_ne f i k true false ?_
        intro hik
        exact (List.nodup_cons.mp hnd).1 (hik ▸ hk)
      rw [pickSum_cons, pickSum_cons, getD_set_self f i true false hlen, hfalse,
        pickSum_congr hrest]
      simp [Nat.add_comm]
    · have hji : i ≠ j := by
        intro hik
        exact (List.nodup_cons.mp hnd).1 (hik ▸ hmem1)
      rw [pickSum_cons, pickSum_cons, getD_set_ne f i j true false hji,
        ih (List.nodup_cons.mp hnd).2 hmem1]
      omega

/-- Permutation moving the middle block of an append to the front. -/
lemma perm_append_swap (a b c : List Branch) : (a ++ (b ++ c)).Perm (b ++ (a ++ c)) := by
  have h1 : (a ++ b).Perm (b ++ a) := List.perm_append_comm
  have h2 : ((a ++ b) ++ c).Perm ((b ++ a) ++ c) := h1.append_right c
  have h3 : a ++ (b ++ c) = (a ++ b) ++ c := (List.append_assoc a b c).symm
  have h4 : (b ++ a) ++ c = b ++ (a ++ c) := List.append_assoc b a c
  rw [h3, ← h4] at *
  exact h2

lemma pickTrees_set_perm {env : ChainEnv ε} {f : List Bool} {idxs : List Nat} {i : Nat}
    (hnd : idxs.Nodup) (hmem : i ∈ idxs) (hlen : i < f.length)
    (hfalse : f.getD i false = false) :
    (pickTrees env (f.set i true) idxs).Perm (chainTrees env i ++ pickTrees env f idxs) := by
  induction idxs with
  | nil => simp at hmem
  | cons j rest ih =>
    rcases List.mem_cons.mp hmem with rfl | hmem1
    · have hrest : ∀ k ∈ rest, (f.set i true).getD k false = f.getD k false := by
        intro k hk
        refine getD_set_ne f i k true false ?_
        intro hik
        exact (List.nodup_cons.mp hnd).1 (hik ▸ hk)
      rw [pickTrees_cons, pickTrees_cons, getD_set_self f i true false hlen, hfalse,
        pickTrees_congr hrest]
      simp
    · have hji : i ≠ j := by
        intro hik
        exact (List.nodup_cons.mp hnd).1 (hik ▸ hmem1)
      rw [pickTrees_cons, pickTrees_cons, getD_set_ne f i j true false hji]
      have hrec := ih (List.nodup_cons.mp hnd).2 hmem1
      refine (hrec.append_left _).trans ?_
      exact perm_append_swap _ (chainTrees env i) (pickTrees env f rest)

lemma pickSum_all_true {f : List Bool} {g : Nat → Nat} {idxs : List Nat}
    (h : ∀ i ∈ idxs, f.getD i false = true) :
    pickSum f g idxs = (idxs.map g).sum := by
  induction idxs with
  | nil => rfl
  | cons j rest ih =>
    rw [pickSum_cons, h j (by simp), ih (fun i hi => h i (by simp [hi]))]
    simp

lemma pickTrees_all_true {env : ChainEnv ε} {f : List Bool} {idxs : List Nat}
    (h : ∀ i ∈ idxs, f.getD i false = true) :
    pickTrees env f idxs = idxs.foldr (fun i acc => chainTrees env i ++ acc) [] := by
  induction idxs with
  | nil => rfl
  | cons j rest ih =>
    rw [pickTrees_cons, h j (by simp), ih (fun i hi => h i (by simp [hi]))]
    simp

lemma pickSum_all_false {f : List Bool} {g : Nat → Nat} {idxs : List Nat}
    (h : ∀ i ∈ idxs, f.getD i false = false) :
    pickSum f g idxs = 0 := by
  induction idxs with
  | nil => rfl
  | cons j rest ih =>
    rw [pickSum_cons, h j (by simp), ih (fun i hi => h i (by simp [hi]))]
    simp

lemma pickTrees_all_false {env : ChainEnv ε} {f : List Bool} {idxs : List Nat}
    (h : ∀ i ∈ idxs, f.getD i false = false) :
    pickTrees env f idxs = [] := by
  induction idxs with
  | nil => rfl
  | cons j rest ih =>
    rw [pickTrees_cons, h j (by simp), ih (fun i hi => h i (by simp [hi]))]
    simp

/-- Loop invariant of the polling loop: the `finished` array has one slot
per chain, a chain marked finished had a successful outcome, and the three
accumulators hold exactly the mass of the finished chains. -/
structure Inv (env : ChainEnv ε) (s : OrchState) : Prop where
  len : s.finished.length = env.n
  okFin : ∀ i, i < env.n → s.finished.getD i false = true → ∃ r, env.outcome i = Except.ok r
  expl : s.explored = pickSum s.finished (chainExplored env) (List.range env.n)
  cuts : s.cut = pickSum s.finished (chainCut env) (List.range env.n)
  trees : s.bestTrees.Perm (pickTrees env s.finished (List.range env.n))


lemma foldState_finished (s : OrchState) (i : Nat) (r : ChainResult) :
    (foldState s i r).finished = s.finished.set i true := rfl

lemma foldState_bestTrees (s : OrchState) (i : Nat) (r : ChainResult) :
    (foldState s i r).bestTrees = s.bestTrees ++ r.trees := rfl

lemma foldState_explored (s : OrchState) (i : Nat) (r : ChainResult) :
    (foldState s i r).explored = s.explored + r.explored := rfl

lemma foldState_cut (s : OrchState) (i : Nat) (r : ChainResult) :
    (foldState s i r).cut = s.cut + r.cut := rfl

lemma foldState_observed (s : OrchState) (i : Nat) (r : ChainResult) :
    (foldState s i r).observed = s.observed := rfl

lemma checkChain_skip {env : ChainEnv ε} {sched : Schedule} {t : Nat} {s : OrchState}
    {i : Nat} (h1 : s.finished.getD i true = true) :
    checkChain env sched t s i = .ok s := by
  unfold checkChain
  rw [if_pos h1]

lemma checkChain_notdone {env : ChainEnv ε} {sched : Schedule} {t : Nat} {s : OrchState}
    {i : Nat} (h1 : s.finished.getD i true = false) (h2 : ¬ sched.doneAt i ≤ t) :
    checkChain env sched t s i = .ok s := by
  unfold checkChain
  rw [if_neg (by rw [h1]; simp), if_neg h2]

lemma checkChain_raise {env : ChainEnv ε} {sched : Schedule} {t : Nat} {s : OrchState}
    {i : Nat} {e : ε} (h1 : s.finished.getD i true = false) (h2 : sched.doneAt i ≤ t)
    (hout : env.outcome i = .error e) :
    checkChain env sched t s i = .error e := by
  unfold checkChain
  rw [if_neg (by rw [h1]; simp), if_pos h2, hout]

lemma checkChain_fold {env : ChainEnv ε} {sched : Schedule} {t : Nat} {s : OrchState}
    {i : Nat} {r : ChainResult} (h1 : s.finished.getD i true = false)
    (h2 : sched.doneAt i ≤ t) (hout : env.outcome i = .ok r) :
    checkChain env sched t s i = .ok (foldState s i r) := by
  unfold checkChain
  rw [if_neg (by rw [h1]; simp), if_pos h2, hout]

lemma inv_init (env : ChainEnv ε) : Inv env (initState env.n) := by
  have hfalse : ∀ i ∈ List.range env.n, (List.replicate env.n false).getD i false = false :=
    fun i _ => getD_replicate_false env.n i
  refine ⟨by simp [initState], ?_, ?_, ?_, ?_⟩
  · intro i hi hfin
    rw [show (initState env.n).finished = List.replicate env.n false from rfl,
      getD_replicate_false] at hfin
    exact absurd hfin (by simp)
  · rw [show (initState env.n).finished = List.replicate env.n false from rfl,
      pickSum_all_false hfalse]
    rfl
  · rw [show (initState env.n).finished = List.replicate env.n false from rfl,
      pickSum_all_false hfalse]
    rfl
  · rw [show (initState env.n).finished = List.replicate env.n false from rfl,
      pickTrees_all_false hfalse]
    exact List.Perm.nil

lemma checkChain_err {env : ChainEnv ε} {sched : Schedule} {t : Nat} {s : OrchState}
    {i : Nat} {e : ε} (h : checkChain env sched t s i = .error e) :
    env.outcome i = .error e := by
  cases hb : s.finished.getD i true with
  | true =>
    rw [checkChain_skip hb] at h
    exact Except.noConfusion h
  | false =>
    by_cases h2 : sched.doneAt i ≤ t
    · cases hout : env.outcome i with
      | error e2 =>
        rw [checkChain_raise hb h2 hout] at h
        injection h with h3
        rw [h3]
      | ok r =>
        rw [checkChain_fold hb h2 hout] at h
        exact Except.noConfusion h
    · rw [checkChain_notdone hb h2] at h
      exact Except.noConfusion h

lemma inv_foldState {env : ChainEnv ε} {s : OrchState} {i : Nat} {r : ChainResult}
    (hInv : Inv env s) (hi : i < env.n) (hfalse : s.finished.getD i false = false)
    (hout : env.outcome i = .ok r) : Inv env (foldState s i r) := by
  have hleni : i < s.finished.length := by rw [hInv.len]; exact hi
  have hex : chainExplored env i = r.explored := by simp [chainExplored, hout]
  have hcu : chainCut env i = r.cut := by simp [chainCut, hout]
  have htr : chainTrees env i = r.trees := by simp [chainTrees, hout]
  refine ⟨?_, ?_, ?_, ?_, ?_⟩
  · rw [foldState_finished, List.length_set]
    exact hInv.len
  · intro j hj hfin
    rw [foldState_finished] at hfin
    by_cases hji : j = i
    · exact ⟨r, hji ▸ hout⟩
    · rw [getD_set_ne s.finished i j true false (fun hij => hji hij.symm)] at hfin
      exact hInv.okFin j hj hfin
  · rw [foldState_explored, foldState_finished,
      pickSum_set_true (List.nodup_range env.n) (List.mem_range.mpr hi) hleni hfalse,
      ← hInv.expl, hex]
  · rw [foldState_cut, foldState_finished,
      pickSum_set_true (List.nodup_range env.n) (List.mem_range.mpr hi) hleni hfalse,
      ← hInv.cuts, hcu]
  · rw [foldState_bestTrees, foldState_finished]
    have hset := @pickTrees_set_perm ε env s.finished (List.range env.n) i
      (List.nodup_range env.n) (List.mem_range.mpr hi) hleni hfalse
    have hstep : (s.bestTrees ++ r.trees).Perm
        (chainTrees env i ++ pickTrees env s.finished (List.range env.n)) := by
      rw [htr]
      exact (hInv.trees.append_right r.trees).trans List.perm_append_comm
    exact hstep.trans hset.symm

lemma getD_true_false {s : OrchState} {i : Nat} (hlen : i < s.finished.length)
    (h1 : s.finished.getD i true = false) : s.finished.getD i false = false := by
  rw [List.getD_eq_getElem _ _ hlen]
  rw [List.getD_eq_getElem _ _ hlen] at h1
  exact h1

lemma checkChain_ok_inv {env : ChainEnv ε} {sched : Schedule} {t : Nat} {s s1 : OrchState}
    {i : Nat} (hInv : Inv env s) (hi : i < env.n)
    (h : checkChain env sched t s i = .ok s1) : Inv env s1 := by
  cases hb : s.finished.getD i true with
  | true =>
    rw [checkChain_skip hb] at h
    injection h with h3
    exact h3 ▸ hInv
  | false =>
    have hleni : i < s.finished.length := by rw [hInv.len]; exact hi
    have hfalse : s.finished.getD i false = false := getD_true_false hleni hb
    by_cases h2 : sched.doneAt i ≤ t
    · cases hout : env.outcome i with
      | error e2 =>
        rw [checkChain_raise hb h2 hout] at h
        exact Except.noConfusion h
      | ok r =>
        rw [checkChain_fold hb h2 hout] at h
        injection h with h3
        exact h3 ▸ inv_foldState hInv hi hfalse hout
    · rw [checkChain_notdone hb h2] at h
      injection h with h3
      exact h3 ▸ hInv

lemma checkChain_ok_observed {env : ChainEnv ε} {sched : Schedule} {t : Nat}
    {s s1 : OrchState} {i : Nat} (h : checkChain env sched t s i = .ok s1) :
    s1.observed = s.observed := by
  cases hb : s.finished.getD i true with
  | true =>
    rw [checkChain_skip hb] at h
    injection h with h3
    rw [← h3]
  | false =>
    by_cases h2 : sched.doneAt i ≤ t
    · cases hout : env.outcome i with
      | error e2 =>
        rw [checkChain_raise hb h2 hout] at h
        exact Except.noConfusion h
      | ok r =>
        rw [checkChain_fold hb h2 hout] at h
        injection h with h3
        rw [← h3, foldState_observed]
    · rw [checkChain_notdone hb h2] at h
      injection h with h3
      rw [← h3]

lemma pollList_nil (env : ChainEnv ε) (sched : Schedule) (t : Nat) (s : OrchState) :
    pollList env sched t [] s = .ok s := rfl

lemma pollList_cons (env : ChainEnv ε) (sched : Schedule) (t : Nat) (s : OrchState)
    (j : Nat) (rest : List Nat) :
    pollList env sched t (j :: rest) s =
      match checkChain env sched t s j with
      | .error e => .error e
      | .ok s1 => pollList env sched t rest s1 := rfl

lemma pollList_ok_inv {env : ChainEnv ε} {sched : Schedule} {t : Nat} {idxs : List Nat}
    {s s1 : OrchState} (hmem : ∀ i ∈ idxs, i < env.n) (hInv : Inv env s)
    (h : pollList env sched t idxs s = .ok s1) : Inv env s1 := by
  induction idxs generalizing s with
  | nil =>
    rw [pollList_nil] at h
    injection h with h3
    exact h3 ▸ hInv
  | cons j rest ih =>
    rw [pollList_cons] at h
    cases hc : checkChain env sched t s j with
    | error e =>
      rw [hc] at h
      exact Except.noConfusion h
    | ok s2 =>
      rw [hc] at h
      exact ih (fun i hi => hmem i (List.mem_cons_of_mem j hi))
        (checkChain_ok_inv hInv (hmem j (List.mem_cons_self j rest)) hc) h

lemma pollList_err {env : ChainEnv ε} {sched : Schedule} {t : Nat} {idxs : List Nat}
    {s : OrchState} {e : ε} (h : pollList env sched t idxs s = .error e) :
    ∃ i ∈ idxs, env.outcome i = .error e := by
  induction idxs generalizing s with
  | nil =>
    rw [pollList_nil] at h
    exact Except.noConfusion h
  | cons j rest ih =>
    rw [pollList_cons] at h
    cases hc : checkChain env sched t s j with
    | error e2 =>
      rw [hc] at h
      have h3 : e2 = e := by injection h
      have hje := checkChain_err hc
      rw [h3] at hje
      exact ⟨j, List.mem_cons_self j rest, hje⟩
    | ok s2 =>
      rw [hc] at h
      obtain ⟨i, hi, hout⟩ := ih h
      exact ⟨i, List.mem_cons_of_mem j hi, hout⟩

lemma pollList_observed {env : ChainEnv ε} {sched : Schedule} {t : Nat} {idxs : List Nat}
    {s s1 : OrchState} (h : pollList env sched t idxs s = .ok s1) :
    s1.observed = s.observed := by
  induction idxs generalizing s with
  | nil =>
    rw [pollList_nil] at h
    injection h with h3
    rw [← h3]
  | cons j rest ih =>
    rw [pollList_cons] at h
    cases hc : checkChain env sched t s j with
    | error e =>
      rw [hc] at h
      exact Except.noConfusion h
    | ok s2 =>
      rw [hc] at h
      rw [ih h, checkChain_ok_observed hc]

lemma pollOnce_ok_inv {env : ChainEnv ε} {sched : Schedule} {t : Nat} {s s1 : OrchState}
    (hInv : Inv env s) (h : pollOnce env sched t s = .ok s1) : Inv env s1 :=
  pollList_ok_inv (fun _ hi => List.mem_range.mp hi) hInv h

lemma pollOnce_err {env : ChainEnv ε} {sched : Schedule} {t : Nat} {s : OrchState} {e : ε}
    (h : pollOnce env sched t s = .error e) : ∃ i, i < env.n ∧ env.outcome i = .error e := by
  obtain ⟨i, hi, hout⟩ := pollList_err h
  exact ⟨i, List.mem_range.mp hi, hout⟩

lemma pollOnce_observed {env : ChainEnv ε} {sched : Schedule} {t : Nat} {s s1 : OrchState}
    (h : pollOnce env sched t s = .ok s1) : s1.observed = s.observed :=
  pollList_observed h

lemma loop_zero (env : ChainEnv ε) (sched : Schedule) (t : Nat) (s : OrchState) :
    loop env sched 0 t s =
      if s.finished.all (fun b => b) then .done s else .spin := rfl

lemma loop_succ (env : ChainEnv ε) (sched : Schedule) (fuel t : Nat) (s : OrchState) :
    loop env sched (fuel + 1) t s =
      if s.finished.all (fun b => b) then .done s
      else
        match pollOnce env sched t s with
        | .error e => .fail e
        | .ok s1 => loop env sched fuel (t + 1) (drainOne sched t s1) := rfl

lemma inv_drainOne {env : ChainEnv ε} (sched : Schedule) (t : Nat) {s : OrchState}
    (hInv : Inv env s) : Inv env (drainOne sched t s) := by
  unfold drainOne
  split
  · exact ⟨hInv.len, hInv.okFin, hInv.expl, hInv.cuts, hInv.trees⟩
  · exact hInv

lemma loop_done_inv {env : ChainEnv ε} {sched : Schedule} {fuel t : Nat} {s s1 : OrchState}
    (hInv : Inv env s) (h : loop env sched fuel t s = .done s1) :
    Inv env s1 ∧ s1.finished.all (fun b => b) = true := by
  induction fuel generalizing t s with
  | zero =>
    rw [loop_zero] at h
    by_cases hall : s.finished.all (fun b => b)
    · rw [if_pos hall] at h
      injection h with h3
      exact ⟨h3 ▸ hInv, h3 ▸ hall⟩
    · rw [if_neg hall] at h
      exact RunResult.noConfusion h
  | succ fuel ih =>
    rw [loop_succ] at h
    by_cases hall : s.finished.all (fun b => b)
    · rw [if_pos hall] at h
      injection h with h3
      exact ⟨h3 ▸ hInv, h3 ▸ hall⟩
    · rw [if_neg hall] at h
      cases hp : pollOnce env sched t s with
      | error e =>
        rw [hp] at h
        exact RunResult.noConfusion h
      | ok s2 =>
        rw [hp] at h
        exact ih (inv_drainOne sched t (pollOnce_ok_inv hInv hp)) h

lemma loop_fail {env : ChainEnv ε} {sched : Schedule} {fuel t : Nat} {s : OrchState}
    {e : ε} (h : loop env sched fuel t s = .fail e) :
    ∃ i, i < env.n ∧ env.outcome i = .error e := by
  induction fuel generalizing t s with
  | zero =>
    rw [loop_zero] at h
    by_cases hall : s.finished.all (fun b => b)
    · rw [if_pos hall] at h
      exact RunResult.noConfusion h
    · rw [if_neg hall] at h
      exact RunResult.noConfusion h
  | succ fuel ih =>
    rw [loop_succ] at h
    by_cases hall : s.finished.all (fun b => b)
    · rw [if_pos hall] at h
      exact RunResult.noConfusion h
    · rw [if_neg hall] at h
      cases hp : pollOnce env sched t s with
      | error e2 =>
        rw [hp] at h
        have h3 : e2 = e := by injection h
        obtain ⟨i, hi, hout⟩ := pollOnce_err hp
        rw [h3] at hout
        exact ⟨i, hi, hout⟩
      | ok s2 =>
        rw [hp] at h
        exact ih h

lemma loop_all_done {env : ChainEnv ε} (sched : Schedule) (fuel t : Nat) {s : OrchState}
    (hall : s.finished.all (fun b => b) = true) :
    loop env sched fuel t s = .done s := by
  cases fuel with
  | zero => rw [loop_zero, if_pos hall]
  | succ fuel => rw [loop_succ, if_pos hall]

lemma drainOne_le {sched : Schedule} {t B : Nat} {s : OrchState}
    (hB : sched.pushedBy t ≤ B) (hs : s.observed ≤ B) :
    (drainOne sched t s).observed ≤ B := by
  unfold drainOne
  split
  · rename_i hlt
    show s.observed + 1 ≤ B
    omega
  · exact hs

lemma loop_observed_le {env : ChainEnv ε} {sched : Schedule} {B : Nat}
    (hB : ∀ u, sched.pushedBy u ≤ B) {fuel t : Nat} {s s1 : OrchState}
    (hs : s.observed ≤ B) (h : loop env sched fuel t s = .done s1) :
    s1.observed ≤ B := by
  induction fuel generalizing t s with
  | zero =>
    rw [loop_zero] at h
    by_cases hall : s.finished.all (fun b => b)
    · rw [if_pos hall] at h
      injection h with h3
      exact h3 ▸ hs
    · rw [if_neg hall] at h
      exact RunResult.noConfusion h
  | succ fuel ih =>
    rw [loop_succ] at h
    by_cases hall : s.finished.all (fun b => b)
    · rw [if_pos hall] at h
      injection h with h3
      exact h3 ▸ hs
    · rw [if_neg hall] at h
      cases hp : pollOnce env sched t s with
      | error e =>
        rw [hp] at h
        exact RunResult.noConfusion h
      | ok s2 =>
        rw [hp] at h
        refine ih ?_ h
        refine drainOne_le (hB t) ?_
        rw [pollOnce_observed hp]
        exact hs

lemma allFin_getD {env : ChainEnv ε} {s : OrchState} (hlen : s.finished.length = env.n)
    (hall : s.finished.all (fun b => b) = true) {i : Nat} (hi : i < env.n) :
    s.finished.getD i false = true := by
  have h1 : i < s.finished.length := by rw [hlen]; exact hi
  rw [List.getD_eq_getElem _ _ h1]
  have h2 := List.all_eq_true.mp hall _ (List.getElem_mem h1)
  simpa using h2

lemma inv_final {env : ChainEnv ε} {s : OrchState} (hInv : Inv env s)
    (hall : s.finished.all (fun b => b) = true) :
    s.explored = totalExplored env ∧ s.cut = totalCut env ∧
      s.bestTrees.Perm (allTrees env) := by
  have hgd : ∀ i ∈ List.range env.n, s.finished.getD i false = true := fun i hi =>
    allFin_getD hInv.len hall (List.mem_range.mp hi)
  refine ⟨?_, ?_, ?_⟩
  · rw [hInv.expl, pickSum_all_true hgd]
    rfl
  · rw [hInv.cuts, pickSum_all_true hgd]
    rfl
  · have h3 := hInv.trees
    rw [pickTrees_all_true hgd] at h3
    exact h3

lemma inv_final_ok {env : ChainEnv ε} {s : OrchState} (hInv : Inv env s)
    (hall : s.finished.all (fun b => b) = true) :
    ∀ i, i < env.n → ∃ r, env.outcome i = Except.ok r :=
  fun i hi => hInv.okFin i hi (allFin_getD hInv.len hall hi)

/-- Decidable equality of worker outcomes, for concrete evaluation. -/
instance {α β : Type} [DecidableEq α] [DecidableEq β] : DecidableEq (Except α β) :=
  fun a b =>
    match a, b with
    | .error x, .error y =>
      match decEq x y with
      | isTrue h => isTrue (h ▸ rfl)
      | isFalse h => isFalse (fun hc => h (Except.error.inj hc))
    | .error _, .ok _ => isFalse (fun hc => Except.noConfusion hc)
    | .ok _, .error _ => isFalse (fun hc => Except.noConfusion hc)
    | .ok x, .ok y =>
      match decEq x y with
      | isTrue h => isTrue (h ▸ rfl)
      | isFalse h => isFalse (fun hc => h (Except.ok.inj hc))

lemma getD_default_irrel {l : List Bool} {i : Nat} (h : i < l.length) (d1 d2 : Bool) :
    l.getD i d1 = l.getD i d2 := by
  rw [List.getD_eq_getElem _ _ h, List.getD_eq_getElem _ _ h]

lemma drainOne_finished (sched : Schedule) (t : Nat) (s : OrchState) :
    (drainOne sched t s).finished = s.finished := by
  unfold drainOne
  split <;> rfl

lemma drainOne_bestTrees (sched : Schedule) (t : Nat) (s : OrchState) :
    (drainOne sched t s).bestTrees = s.bestTrees := by
  unfold drainOne
  split <;> rfl

lemma drainOne_le_succ (sched : Schedule) (t : Nat) (s : OrchState) :
    (drainOne sched t s).observed ≤ s.observed + 1 := by
  unfold drainOne
  split
  · exact Nat.le_refl _
  · exact Nat.le_succ _

lemma all_true_of_getD {l : List Bool} (h : ∀ k, k < l.length → l.getD k false = true) :
    l.all (fun b => b) = true := by
  rw [List.all_eq_true]
  intro x hx
  obtain ⟨k, hk, hkx⟩ := List.mem_iff_getElem.mp hx
  have h2 := h k hk
  rw [List.getD_eq_getElem _ _ hk, hkx] at h2
  simpa using h2

lemma replicate_all_true {n : Nat}
    (h : (List.replicate n false).all (fun b => b) = true) : n = 0 := by
  cases n with
  | zero => rfl
  | succ m => simp [List.replicate] at h

/-- Folding one full pass over pairwise-distinct, not-yet-finished, already
completed, successful chain indices appends their solutions in index-list
order and marks exactly those chains finished. -/
lemma pollList_fold_all {env : ChainEnv ε} {sched : Schedule} {t : Nat} {idxs : List Nat}
    {s : OrchState}
    (hnd : idxs.Nodup)
    (hlen : ∀ i ∈ idxs, i < s.finished.length)
    (hunf : ∀ i ∈ idxs, s.finished.getD i false = false)
    (hdone : ∀ i ∈ idxs, sched.doneAt i ≤ t)
    (hok : ∀ i ∈ idxs, ∃ r, env.outcome i = .ok r) :
    ∃ s1, pollList env sched t idxs s = .ok s1 ∧
      s1.bestTrees = s.bestTrees ++ idxs.foldr (fun i acc => chainTrees env i ++ acc) [] ∧
      s1.finished.length = s.finished.length ∧
      (∀ k ∈ idxs, s1.finished.getD k false = true) ∧
      (∀ k, k ∉ idxs → s1.finished.getD k false = s.finished.getD k false) := by
  induction idxs generalizing s with
  | nil =>
    refine ⟨s, rfl, by simp, rfl, by simp, fun k _ => rfl⟩
  | cons j rest ih =>
    obtain ⟨hjrest, hndrest⟩ := List.nodup_cons.mp hnd
    obtain ⟨r, hr⟩ := hok j (List.mem_cons_self j rest)
    have hjlen : j < s.finished.length := hlen j (List.mem_cons_self j rest)
    have hjt : s.finished.getD j true = false := by
      rw [getD_default_irrel hjlen true false]
      exact hunf j (List.mem_cons_self j rest)
    have hstep := @checkChain_fold ε env sched t s j r
      hjt (hdone j (List.mem_cons_self j rest)) hr
    have hlen1 : ∀ i ∈ rest, i < (foldState s j r).finished.length := by
      intro i hi
      rw [foldState_finished, List.length_set]
      exact hlen i (List.mem_cons_of_mem j hi)
    have hunf1 : ∀ i ∈ rest, (foldState s j r).finished.getD i false = false := by
      intro i hi
      rw [foldState_finished,
        getD_set_ne s.finished j i true false (fun hji => hjrest (hji ▸ hi))]
      exact hunf i (List.mem_cons_of_mem j hi)
    have hdone1 : ∀ i ∈ rest, sched.doneAt i ≤ t :=
      fun i hi => hdone i (List.mem_cons_of_mem j hi)
    have hok1 : ∀ i ∈ rest, ∃ r2, env.outcome i = .ok r2 :=
      fun i hi => hok i (List.mem_cons_of_mem j hi)
    obtain ⟨s1, h1, h2, h3, h4, h5⟩ := ih hndrest hlen1 hunf1 hdone1 hok1
    have hct : chainTrees env j = r.trees := by simp [chainTrees, hr]
    refine ⟨s1, ?_, ?_, ?_, ?_, ?_⟩
    · rw [pollList_cons, hstep]
      exact h1
    · rw [h2, foldState_bestTrees, List.append_assoc, List.foldr_cons, hct]
    · rw [h3, foldState_finished, List.length_set]
    · intro k hk
      rcases List.mem_cons.mp hk with rfl | hk1
      · rw [h5 k hjrest, foldState_finished, getD_set_self s.finished k true false hjlen]
      · exact h4 k hk1
    · intro k hk
      have hkj : k ≠ j := fun hkj => hk (hkj ▸ List.mem_cons_self j rest)
      have hkrest : k ∉ rest := fun hk1 => hk (List.mem_cons_of_mem j hk1)
      rw [h5 k hkrest, foldState_finished,
        getD_set_ne s.finished j k true false (fun hjk => hkj hjk.symm)]

/-- When every chain is already done at the first poll, the single first
pass folds all results in ascending chain-index order, so `best_trees` is
exactly the index-order concatenation of the per-chain solution lists. -/
lemma run_index_order {env : ChainEnv ε} {sched : Schedule} {fuel : Nat} {s : OrchState}
    (hdone : ∀ i, sched.doneAt i = 0)
    (h : run_chains_parallel env sched fuel = .done s) :
    s.bestTrees = allTrees env := by
  have hloop : loop env sched fuel 0 (initState env.n) = .done s := h
  have hok : ∀ i, i < env.n → ∃ r, env.outcome i = Except.ok r := by
    have hd := loop_done_inv (inv_init env) hloop
    exact inv_final_ok hd.1 hd.2
  by_cases hall0 : (initState env.n).finished.all (fun b => b) = true
  · have hzero : env.n = 0 := replicate_all_true hall0
    have hdone0 : loop env sched fuel 0 (initState env.n) = .done (initState env.n) :=
      loop_all_done sched fuel 0 hall0
    rw [hdone0] at hloop
    injection hloop with h3
    rw [← h3]
    have : allTrees env = [] := by
      unfold allTrees
      rw [hzero]
      rfl
    rw [this]
    rfl
  · cases fuel with
    | zero =>
      rw [loop_zero, if_neg hall0] at hloop
      exact RunResult.noConfusion hloop
    | succ fuel =>
      rw [loop_succ, if_neg hall0] at hloop
      have hlen0 : ∀ i ∈ List.range env.n, i < (initState env.n).finished.length := by
        intro i hi
        rw [show (initState env.n).finished = List.replicate env.n false from rfl,
          List.length_replicate]
        exact List.mem_range.mp hi
      have hunf0 : ∀ i ∈ List.range env.n, (initState env.n).finished.getD i false = false :=
        fun i _ => getD_replicate_false env.n i
      have hdone0 : ∀ i ∈ List.range env.n, sched.doneAt i ≤ 0 :=
        fun i _ => Nat.le_of_eq (hdone i)
      have hok0 : ∀ i ∈ List.range env.n, ∃ r, env.outcome i = .ok r :=
        fun i hi => hok i (List.mem_range.mp hi)
      obtain ⟨s1, hpoll, htrees, hlen1, hfin1, _⟩ :=
        pollList_fold_all (List.nodup_range env.n) hlen0 hunf0 hdone0 hok0
      have hpoll2 : pollOnce env sched 0 (initState env.n) = .ok s1 := hpoll
      rw [hpoll2] at hloop
      have hall1 : s1.finished.all (fun b => b) = true := by
        refine all_true_of_getD ?_
        intro k hk
        refine hfin1 k (List.mem_range.mpr ?_)
        rw [hlen1, show (initState env.n).finished = List.replicate env.n false from rfl,
          List.length_replicate] at hk
        exact hk
      have hall2 : (drainOne sched 0 s1).finished.all (fun b => b) = true := by
        rw [drainOne_finished]
        exact hall1
      have hstop : loop env sched fuel 1 (drainOne sched 0 s1) =
          .done (drainOne sched 0 s1) := loop_all_done sched fuel 1 hall2
      have hloop2 : loop env sched fuel 1 (drainOne sched 0 s1) = .done s := hloop
      rw [hstop] at hloop2
      injection hloop2 with h3
      rw [← h3, drainOne_bestTrees, htrees]
      rfl

lemma rankedOf_sorted (s : OrchState) :
    (rankedOf s).Pairwise (fun a b => a.score ≤ b.score) :=
  List.sorted_insertionSort branchLE s.bestTrees

lemma rankedOf_perm (s : OrchState) : (rankedOf s).Perm s.bestTrees :=
  List.perm_insertionSort branchLE s.bestTrees

/-- Concrete run: two successful chains with distinct scores, both done
at the first poll, two progress events pushed before the first drain. -/
def envW1 : ChainEnv Unit :=
  { n := 2, beamWidth := 1,
    outcome := fun i =>
      if i = 0 then .ok { trees := [⟨10, 0⟩], explored := 2, cut := 1 }
      else .ok { trees := [⟨3, 1⟩], explored := 3, cut := 4 } }

/-- Schedule for `envW1`: both futures done at iteration 0. -/
def schedW1 : Schedule := { doneAt := fun _ => 0, pushedBy := fun _ => 2 }

/-- Final locals of the `envW1`/`schedW1` run. -/
def sW1 : OrchState := ⟨[true, true], [⟨10, 0⟩, ⟨3, 1⟩], 5, 5, 1⟩

/-- State after the first full scan of the `envW1` run, before draining. -/
def s1W : OrchState := ⟨[true, true], [⟨10, 0⟩, ⟨3, 1⟩], 5, 5, 0⟩

/-- Concrete run: chain 0 raises error `7`, chain 1 succeeds. -/
def envC3a : ChainEnv Nat :=
  { n := 2, beamWidth := 1,
    outcome := fun i =>
      if i = 0 then .error 7 else .ok { trees := [], explored := 0, cut := 0 } }

/-- Concrete run: chain 1 raises error `7`, chain 0 succeeds. -/
def envC3b : ChainEnv Nat :=
  { n := 2, beamWidth := 1,
    outcome := fun i =>
      if i = 1 then .error 7 else .ok { trees := [], explored := 0, cut := 0 } }

/-- Schedule for the failing runs: everything done at iteration 0. -/
def schedC3 : Schedule := { doneAt := fun _ => 0, pushedBy := fun _ => 0 }

/-- Concrete run: two chains whose single solutions share score `5` and
differ only in payload. -/
def envC4 : ChainEnv Unit :=
  { n := 2, beamWidth := 1,
    outcome := fun i =>
      if i = 0 then .ok { trees := [⟨5, 0⟩], explored := 1, cut := 0 }
      else .ok { trees := [⟨5, 1⟩], explored := 1, cut := 0 } }

/-- Schedule observing the chains in index order (all done at once). -/
def schedC4a : Schedule := { doneAt := fun _ => 0, pushedBy := fun _ => 0 }

/-- Schedule observing chain 1 one iteration before chain 0. -/
def schedC4b : Schedule :=
  { doneAt := fun i => if i = 0 then 1 else 0, pushedBy := fun _ => 0 }

/-- Final locals of the `envC4`/`schedC4a` run: fold order 0, 1. -/
def sC4a : OrchState := ⟨[true, true], [⟨5, 0⟩, ⟨5, 1⟩], 2, 0, 0⟩

/-- Final locals of the `envC4`/`schedC4b` run: fold order 1, 0. -/
def sC4b : OrchState := ⟨[true, true], [⟨5, 1⟩, ⟨5, 0⟩], 2, 0, 0⟩

/-- Concrete run: one chain, beam width 2, both events queued up front. -/
def envC8 : ChainEnv Unit :=
  { n := 1, beamWidth := 2,
    outcome := fun _ => .ok { trees := [], explored := 0, cut := 0 } }

/-- Schedule for `envC8`: the future is done at once, two events queued. -/
def schedC8 : Schedule := { doneAt := fun _ => 0, pushedBy := fun _ => 2 }

/-- Final locals of the `envC8`/`schedC8` run: only one event drained. -/
def sC8 : OrchState := ⟨[true], [], 0, 0, 1⟩

/-- Concrete run with `n_chains = 0`. -/
def envC9 : ChainEnv Unit :=
  { n := 0, beamWidth := 3, outcome := fun _ => .ok { trees := [], explored := 0, cut := 0 } }

/-- C1: for every successful run of `run_chains_parallel`, the returned
`total_explored` equals the exact sum of the per-chain explored counters
and the returned `total_cut` the exact sum of the per-chain cut counters,
each chain counted exactly once — no double counting, no loss. -/
theorem C1_counters_exact_sum {ε : Type} {env : ChainEnv ε} {sched : Schedule}
    {fuel : Nat} {s : OrchState} (h : run_chains_parallel env sched fuel = .done s) :
    (returnValue s).2.1 = totalExplored env ∧ (returnValue s).2.2 = totalCut env := by
  have hloop : loop env sched fuel 0 (initState env.n) = .done s := h
  have hd := loop_done_inv (inv_init env) hloop
  have hf := inv_final hd.1 hd.2
  exact ⟨hf.1, hf.2.1⟩

/-- C1 witness: the concrete two-chain run sums `2 + 3` and `1 + 4`. -/
theorem C1_counters_exact_sum_witness :
    (returnValue sW1).2.1 = totalExplored envW1 ∧
    (returnValue sW1).2.2 = totalCut envW1 :=
  @C1_counters_exact_sum Unit envW1 schedW1 2 sW1 rfl

/-- C2: for every successful run, the returned `ranked_solutions` is
sorted ascending by score and is, as a multiset, exactly the
concatenation of all chains' solutions: none dropped, none duplicated. -/
theorem C2_merge_correct {ε : Type} {env : ChainEnv ε} {sched : Schedule}
    {fuel : Nat} {s : OrchState} (h : run_chains_parallel env sched fuel = .done s) :
    ((returnValue s).1).Pairwise (fun a b => a.score ≤ b.score) ∧
    ((returnValue s).1).Perm (allTrees env) := by
  have hloop : loop env sched fuel 0 (initState env.n) = .done s := h
  have hd := loop_done_inv (inv_init env) hloop
  have hf := inv_final hd.1 hd.2
  exact ⟨rankedOf_sorted s, (rankedOf_perm s).trans hf.2.2⟩

/-- C2 witness: the concrete two-chain run merges both solutions into an
ascending sequence. -/
theorem C2_merge_correct_witness :
    ((returnValue sW1).1).Pairwise (fun a b => a.score ≤ b.score) ∧
    ((returnValue sW1).1).Perm (allTrees envW1) :=
  @C2_merge_correct Unit envW1 schedW1 2 sW1 rfl

/-- C3 counterexample: two runs whose failing chain differs (chain 0 in
the first, chain 1 in the second) produce the identical failure value
`.fail 7` — the raw worker error, no SearchFailure wrapper — so the
propagated error does not identify which chain failed. -/
theorem C3_counterexample :
    run_chains_parallel envC3a schedC3 5 = .fail 7 ∧
    run_chains_parallel envC3b schedC3 5 = .fail 7 ∧
    envC3a.outcome 0 = .error 7 ∧ envC3b.outcome 1 = .error 7 ∧
    envC3b.outcome 0 ≠ .error 7 := by decide

/-- C3 (amended): if any chain's search raises an error the run fails by
propagating that original error value itself (line 135 re-raises it; no
SearchFailure wrapper, so the error does not identify the chain), and no
partial result is returned — a successful return implies every chain
succeeded. -/
theorem C3_failfast {ε : Type} (env : ChainEnv ε) (sched : Schedule) (fuel : Nat) :
    (∀ e, run_chains_parallel env sched fuel = .fail e →
      ∃ i, i < env.n ∧ env.outcome i = .error e) ∧
    (∀ s, run_chains_parallel env sched fuel = .done s →
      ∀ i, i < env.n → ∃ r, env.outcome i = Except.ok r) := by
  constructor
  · intro e h
    have hloop : loop env sched fuel 0 (initState env.n) = .fail e := h
    exact loop_fail hloop
  · intro s h i hi
    have hloop : loop env sched fuel 0 (initState env.n) = .done s := h
    have hd := loop_done_inv (inv_init env) hloop
    exact inv_final_ok hd.1 hd.2 i hi

/-- C3 witness: the failing run propagates the raw error of some chain;
the successful run has only successful chains. -/
theorem C3_failfast_witness :
    (∃ i, i < envC3a.n ∧ envC3a.outcome i = .error 7) ∧
    (∃ r, envW1.outcome 0 = Except.ok r) :=
  ⟨(C3_failfast envC3a schedC3 5).1 7 rfl,
   (C3_failfast envW1 schedW1 2).2 sW1 rfl 0 (by decide)⟩

/-- C4 counterexample: identical inputs under two completion schedules
yield different `ranked_solutions` sequences — the two equal-score
solutions swap — so repeated runs are not guaranteed bit-identical. -/
theorem C4_counterexample :
    run_chains_parallel envC4 schedC4a 2 = .done sC4a ∧
    run_chains_parallel envC4 schedC4b 2 = .done sC4b ∧
    returnValue sC4a ≠ returnValue sC4b := by decide

/-- C4 (amended): two successful runs with identical inputs produce
identical `total_explored` and `total_cut` and `ranked_solutions` equal
as multisets; the sequences agree except possibly on the relative order
of equal-score solutions, which can vary with completion order. -/
theorem C4_determinism_upto_ties {ε : Type} {env : ChainEnv ε}
    {sched1 sched2 : Schedule} {fuel1 fuel2 : Nat} {s1 s2 : OrchState}
    (h1 : run_chains_parallel env sched1 fuel1 = .done s1)
    (h2 : run_chains_parallel env sched2 fuel2 = .done s2) :
    s1.explored = s2.explored ∧ s1.cut = s2.cut ∧
      (rankedOf s1).Perm (rankedOf s2) := by
  have hl1 : loop env sched1 fuel1 0 (initState env.n) = .done s1 := h1
  have hl2 : loop env sched2 fuel2 0 (initState env.n) = .done s2 := h2
  have hd1 := loop_done_inv (inv_init env) hl1
  have hd2 := loop_done_inv (inv_init env) hl2
  have hf1 := inv_final hd1.1 hd1.2
  have hf2 := inv_final hd2.1 hd2.2
  refine ⟨hf1.1.trans hf2.1.symm, hf1.2.1.trans hf2.2.1.symm, ?_⟩
  exact ((rankedOf_perm s1).trans hf1.2.2).trans
    (((rankedOf_perm s2).trans hf2.2.2).symm)

/-- C4 witness: the two schedules of the counterexample still agree on
counters and on the solution multiset. -/
theorem C4_determinism_upto_ties_witness :
    sC4a.explored = sC4b.explored ∧ sC4a.cut = sC4b.cut ∧
      (rankedOf sC4a).Perm (rankedOf sC4b) :=
  @C4_determinism_upto_ties Unit envC4 schedC4a schedC4b 2 2 sC4a sC4b rfl rfl

/-- C5 counterexample: with chain 1 observed complete before chain 0, the
equal-score solutions appear in completion order `[tag 1, tag 0]` rather
than chain-index order `[tag 0, tag 1]`: the merged sequence depends on
completion order and ties do not follow chain index. -/
theorem C5_counterexample :
    run_chains_parallel envC4 schedC4b 2 = .done sC4b ∧
    rankedOf sC4b = [⟨5, 1⟩, ⟨5, 0⟩] ∧
    rankedOf sC4b ≠ [⟨5, 0⟩, ⟨5, 1⟩] := by decide

/-- C5 (amended): the merged counters and the multiset of solutions are
independent of completion order — for every schedule they equal the
canonical per-chain totals — while equal-score solutions follow the fold
order of chain results, which is chain index then within-chain order
precisely when every chain is already done at the first poll. -/
theorem C5_merge_order {ε : Type} {env : ChainEnv ε} (sched : Schedule) (fuel : Nat) :
    (∀ s, run_chains_parallel env sched fuel = .done s →
      s.explored = totalExplored env ∧ s.cut = totalCut env ∧
        (rankedOf s).Perm (allTrees env)) ∧
    ((∀ i, sched.doneAt i = 0) → ∀ s, run_chains_parallel env sched fuel = .done s →
      s.bestTrees = allTrees env) := by
  constructor
  · intro s h
    have hloop : loop env sched fuel 0 (initState env.n) = .done s := h
    have hd := loop_done_inv (inv_init env) hloop
    have hf := inv_final hd.1 hd.2
    exact ⟨hf.1, hf.2.1, (rankedOf_perm s).trans hf.2.2⟩
  · intro hdone s h
    exact run_index_order hdone h

/-- C5 witness: under the late-chain-0 schedule the multiset is still the
canonical one; under the index-order schedule `best_trees` is exactly the
index-order concatenation. -/
theorem C5_merge_order_witness :
    (sC4b.explored = totalExplored envC4 ∧ sC4b.cut = totalCut envC4 ∧
      (rankedOf sC4b).Perm (allTrees envC4)) ∧
    sC4a.bestTrees = allTrees envC4 :=
  ⟨(@C5_merge_order Unit envC4 schedC4b 2).1 sC4b rfl,
   (@C5_merge_order Unit envC4 schedC4a 2).2 (fun _ => rfl) sC4a rfl⟩

/-- C6: the seed handed to chain `i` is `(base_seed + chain_index + 1) %
MAX_SEED`, lies in the valid range `[0, MAX_SEED)`, and depends only on
the pair `(base_seed, chain_index)` — here shown unchanged under a
different `n_chains`. -/
theorem C6_seed_formula (base n m i : Nat) (hi : i < n) (him : i < m) :
    ((chainSpecs base n).getD i ⟨0, 0⟩).seed = (base + i + 1) % MAX_SEED ∧
    ((chainSpecs base n).getD i ⟨0, 0⟩).seed < MAX_SEED ∧
    ((chainSpecs base n).getD i ⟨0, 0⟩).seed = ((chainSpecs base m).getD i ⟨0, 0⟩).seed := by
  have hlen : i < (chainSpecs base n).length := by simpa [chainSpecs] using hi
  have hlenm : i < (chainSpecs base m).length := by simpa [chainSpecs] using him
  have hval : ((chainSpecs base n).getD i ⟨0, 0⟩).seed = (base + i + 1) % MAX_SEED := by
    rw [List.getD_eq_getElem _ _ hlen]
    simp [chainSpecs, chainSeed]
  have hvalm : ((chainSpecs base m).getD i ⟨0, 0⟩).seed = (base + i + 1) % MAX_SEED := by
    rw [List.getD_eq_getElem _ _ hlenm]
    simp [chainSpecs, chainSeed]
  refine ⟨hval, ?_, hval.trans hvalm.symm⟩
  rw [hval]
  exact Nat.mod_lt _ (by norm_num [MAX_SEED])

/-- C6 witness: chain 1 under base seed 7 gets seed `9 % MAX_SEED`. -/
theorem C6_seed_formula_witness :
    ((chainSpecs 7 3).getD 1 ⟨0, 0⟩).seed = (7 + 1 + 1) % MAX_SEED ∧
    ((chainSpecs 7 3).getD 1 ⟨0, 0⟩).seed < MAX_SEED ∧
    ((chainSpecs 7 3).getD 1 ⟨0, 0⟩).seed = ((chainSpecs 7 5).getD 1 ⟨0, 0⟩).seed :=
  C6_seed_formula 7 3 5 1 (by decide) (by decide)

/-- C7: for `n_chains ≤ MAX_SEED`, distinct chain indices below
`n_chains` always receive distinct derived seeds. -/
theorem C7_seeds_distinct (base n i j : Nat) (hn : n ≤ MAX_SEED) (hi : i < n)
    (hj : j < n) (hij : i ≠ j) : chainSeed base i ≠ chainSeed base j := by
  intro h
  have hmod : (base + i + 1) % MAX_SEED = (base + j + 1) % MAX_SEED := h
  have e1 : base + i + 1 = (base + 1) + i := by omega
  have e2 : base + j + 1 = (base + 1) + j := by omega
  rw [e1, e2] at hmod
  have hm : Nat.ModEq MAX_SEED ((base + 1) + i) ((base + 1) + j) := hmod
  have h2 : i % MAX_SEED = j % MAX_SEED := Nat.ModEq.add_left_cancel' (base + 1) hm
  rw [Nat.mod_eq_of_lt (lt_of_lt_of_le hi hn), Nat.mod_eq_of_lt (lt_of_lt_of_le hj hn)] at h2
  exact hij h2

/-- C7 witness: chains 0 and 1 under base seed 7 get different seeds. -/
theorem C7_seeds_distinct_witness : chainSeed 7 0 ≠ chainSeed 7 1 :=
  C7_seeds_distinct 7 3 0 1 (by decide) (by decide) (by decide) (by decide)

/-- C8 counterexample: one chain with beam width 2 — both progress events
are queued when the only poll iteration runs, but a loop iteration drains
at most one event and the loop exits as soon as the chain is folded, so
only 1 of the expected 2 events is ever observed. -/
theorem C8_counterexample :
    run_chains_parallel envC8 schedC8 1 = .done sC8 ∧
    schedC8.pushedBy 0 = expectedProgressUnits envC8 ∧
    sC8.observed = 1 ∧
    sC8.observed ≠ expectedProgressUnits envC8 := by decide

/-- C8 (amended): over a successful run the number of progress events
observed is at most `beam_width × n_chains` (whenever the workers never
push more than that total); events still queued when the last chain is
folded are never drained, so the observed count can be strictly below
the bound. -/
theorem C8_observed_le {ε : Type} {env : ChainEnv ε} {sched : Schedule}
    {fuel : Nat} {s : OrchState}
    (hpush : ∀ u, sched.pushedBy u ≤ expectedProgressUnits env)
    (h : run_chains_parallel env sched fuel = .done s) :
    s.observed ≤ expectedProgressUnits env := by
  have hloop : loop env sched fuel 0 (initState env.n) = .done s := h
  exact loop_observed_le hpush (Nat.zero_le _) hloop

/-- C8 witness: the counterexample run stays within the bound. -/
theorem C8_observed_le_witness : sC8.observed ≤ expectedProgressUnits envC8 :=
  @C8_observed_le Unit envC8 schedC8 1 sC8 (fun _ => Nat.le_refl 2) rfl

/-- C9: with `n_chains = 0` no chain specs are built, the empty
`finished` array satisfies `all(finished)` immediately so the polling
loop body never runs, and the return is the empty ranking with zero
counters and nothing drained. -/
theorem C9_zero_chains {ε : Type} (env : ChainEnv ε) (sched : Schedule) (fuel : Nat)
    (base : Nat) (h : env.n = 0) :
    run_chains_parallel env sched fuel = .done (initState 0) ∧
    returnValue (initState 0) = ([], 0, 0) ∧
    chainSpecs base 0 = [] := by
  refine ⟨?_, rfl, rfl⟩
  have h0 : run_chains_parallel env sched fuel = loop env sched fuel 0 (initState env.n) :=
    rfl
  rw [h0, h]
  exact loop_all_done sched fuel 0 rfl

/-- C9 witness: the concrete zero-chain run. -/
theorem C9_zero_chains_witness :
    run_chains_parallel envC9 schedW1 0 = .done (initState 0) ∧
    returnValue (initState 0) = ([], 0, 0) ∧
    chainSpecs 7 0 = [] :=
  C9_zero_chains envC9 schedW1 0 7 rfl

/-- C10: one polling-loop iteration consumes at most one progress event
(the completion scan never touches the indicator and the drain step adds
at most one unit), and as soon as every chain is marked finished the
loop returns immediately with the state unchanged — any events still
pending in the channel are never drained or counted. -/
theorem C10_poll_iteration {ε : Type} (env : ChainEnv ε) (sched : Schedule)
    (fuel t : Nat) (s s1 : OrchState) :
    (pollOnce env sched t s = .ok s1 →
      (drainOne sched t s1).observed ≤ s.observed + 1) ∧
    (s.finished.all (fun b => b) = true → loop env sched fuel t s = .done s) := by
  constructor
  · intro h
    have h2 := pollOnce_observed h
    have h3 := drainOne_le_succ sched t s1
    omega
  · intro hall
    exact loop_all_done sched fuel t hall

/-- C10 witness: one concrete iteration drains one of the two queued
events, and from the all-finished state the loop stops at once leaving
the remaining event unread. -/
theorem C10_poll_iteration_witness :
    (drainOne schedW1 0 s1W).observed ≤ (initState 2).observed + 1 ∧
    loop envW1 schedW1 5 3 sW1 = .done sW1 :=
  ⟨(C10_poll_iteration envW1 schedW1 5 0 (initState 2) s1W).1 rfl,
   (C10_poll_iteration envW1 schedW1 5 3 sW1 s1W).2 rfl⟩

end Orchard
